import Mathlib

/-!
Verification development for the artifact diff panel
(`apps/web/src/components/artifact-diff-panel/index.tsx`).

Texts are modelled as lists of characters.  The line-diff step
(`diffLines` from the `diff` npm package) is modelled as an LCS-based
line diff over the package's line tokenization (each token is a line
including its terminating newline, plus a possible final unterminated
fragment), with removals emitted before insertions and maximal runs of
equally-classified tokens merged into one change, exactly as the
package produces for the inputs considered here.  The hunk-building
fold, the version resolver and the render-state update are translated
directly from the component source.
-/

namespace ArtifactDiffPanel

/-- A text blob, modelled as a list of characters. -/
abbrev Text := List Char

/-- JavaScript `value.split('\n')`: the list of newline-separated fields
(always nonempty, empty fields included). -/
def splitNl : Text → List Text
  | [] => [[]]
  | c :: rest =>
    match splitNl rest with
    | [] => [[]]
    | l :: ls => if c = '\n' then [] :: l :: ls else (c :: l) :: ls

/-- JavaScript `value.endsWith('\n')`. -/
def endsWithNl : Text → Bool
  | [] => false
  | [c] => c == '\n'
  | _ :: c :: rest => endsWithNl (c :: rest)

/-- The component's line split (source line 103):
`change.value.split('\n').filter(line => line !== '' || change.value.endsWith('\n'))`. -/
def segLines (v : Text) : List Text :=
  (splitNl v).filter (fun line => line != [] || endsWithNl v)

/-- The `diff` package's line tokenizer: each token is one line carrying
its terminating newline; a final fragment without newline is its own
token; the empty text has no tokens. -/
def tokenize : Text → List Text
  | [] => []
  | c :: rest =>
    if c = '\n' then ['\n'] :: tokenize rest
    else
      match tokenize rest with
      | [] => [[c]]
      | t :: ts => (c :: t) :: ts

/-- One change object produced by `diffLines`: a literal text span with
the `added` / `removed` flags (both false for a common span). -/
structure Change where
  value : Text
  added : Bool
  removed : Bool
  deriving DecidableEq, Repr

/-- A single token-level edit in an edit script. -/
inductive Edit where
  | keep (t : Text)
  | del (t : Text)
  | ins (t : Text)
  deriving DecidableEq, Repr

/-- Fuelled worker for the longest-common-subsequence length; the fuel
only bounds the recursion depth and is irrelevant once it reaches the
total length of the inputs. -/
def lcsLenFuel : Nat → List Text → List Text → Nat
  | _, [], _ => 0
  | _, _ :: _, [] => 0
  | 0, _ :: _, _ :: _ => 0
  | fuel + 1, a :: as, b :: bs =>
    if a = b then lcsLenFuel fuel as bs + 1
    else max (lcsLenFuel fuel as (b :: bs)) (lcsLenFuel fuel (a :: as) bs)

/-- Length of a longest common subsequence of two token lists. -/
def lcsLen (xs ys : List Text) : Nat :=
  lcsLenFuel (xs.length + ys.length) xs ys

theorem lcsLenFuel_nil_left (f : Nat) (ys : List Text) : lcsLenFuel f [] ys = 0 := by
  cases f <;> cases ys <;> rfl

theorem lcsLenFuel_nil_right (f : Nat) (x : Text) (xs : List Text) :
    lcsLenFuel f (x :: xs) [] = 0 := by
  cases f <;> rfl

theorem lcsLenFuel_succ (f : Nat) (a : Text) (as : List Text) (b : Text) (bs : List Text) :
    lcsLenFuel (f + 1) (a :: as) (b :: bs) =
      if a = b then lcsLenFuel f as bs + 1
      else max (lcsLenFuel f as (b :: bs)) (lcsLenFuel f (a :: as) bs) := rfl

theorem lcsLenFuel_irrel (f : Nat) :
    ∀ (g : Nat) (xs ys : List Text), xs.length + ys.length ≤ f →
      xs.length + ys.length ≤ g → lcsLenFuel f xs ys = lcsLenFuel g xs ys := by
  induction f with
  | zero =>
    intro g xs ys hf _
    cases xs with
    | nil => rw [lcsLenFuel_nil_left, lcsLenFuel_nil_left]
    | cons a as =>
      cases ys with
      | nil => rw [lcsLenFuel_nil_right, lcsLenFuel_nil_right]
      | cons b bs => simp at hf
  | succ f ih =>
    intro g xs ys hf hg
    cases xs with
    | nil => rw [lcsLenFuel_nil_left, lcsLenFuel_nil_left]
    | cons a as =>
      cases ys with
      | nil => rw [lcsLenFuel_nil_right, lcsLenFuel_nil_right]
      | cons b bs =>
        cases g with
        | zero => simp at hg
        | succ g =>
          rw [lcsLenFuel_succ, lcsLenFuel_succ]
          simp only [List.length_cons] at hf hg
          by_cases hab : a = b
          · rw [if_pos hab, if_pos hab, ih g as bs (by omega) (by omega)]
          · rw [if_neg hab, if_neg hab, ih g as (b :: bs) (by simp; omega) (by simp; omega),
              ih g (a :: as) bs (by simp; omega) (by simp; omega)]

theorem lcsLen_nil_left (ys : List Text) : lcsLen [] ys = 0 := by
  unfold lcsLen
  exact lcsLenFuel_nil_left _ ys

theorem lcsLen_nil_right (x : Text) (xs : List Text) : lcsLen (x :: xs) [] = 0 := by
  unfold lcsLen
  exact lcsLenFuel_nil_right _ x xs

theorem lcsLen_cons (a : Text) (as : List Text) (b : Text) (bs : List Text) :
    lcsLen (a :: as) (b :: bs) =
      if a = b then lcsLen as bs + 1
      else max (lcsLen as (b :: bs)) (lcsLen (a :: as) bs) := by
  unfold lcsLen
  have h : (a :: as).length + (b :: bs).length = (as.length + bs.length + 1) + 1 := by
    simp
    omega
  rw [h, lcsLenFuel_succ]
  by_cases hab : a = b
  · rw [if_pos hab, if_pos hab,
      lcsLenFuel_irrel _ (as.length + bs.length) as bs (by omega) (by omega)]
  · rw [if_neg hab, if_neg hab,
      lcsLenFuel_irrel _ (as.length + (b :: bs).length) as (b :: bs) (by simp; omega)
        (by simp),
      lcsLenFuel_irrel _ ((a :: as).length + bs.length) (a :: as) bs (by simp; omega)
        (by simp)]

/-- Fuelled worker for the edit script; the fuel only bounds the
recursion depth and is irrelevant once it reaches the total length of
the inputs. -/
def editScriptFuel : Nat → List Text → List Text → List Edit
  | _, [], [] => []
  | 0, _, _ => []
  | fuel + 1, [], b :: bs => .ins b :: editScriptFuel fuel [] bs
  | fuel + 1, a :: as, [] => .del a :: editScriptFuel fuel as []
  | fuel + 1, a :: as, b :: bs =>
    if a = b then .keep a :: editScriptFuel fuel as bs
    else if lcsLen (a :: as) bs ≤ lcsLen as (b :: bs) then
      .del a :: editScriptFuel fuel as (b :: bs)
    else
      .ins b :: editScriptFuel fuel (a :: as) bs

/-- A minimal edit script between two token lists, taking removals
before insertions at each divergence (the `diff` package's output
order). -/
def editScript (xs ys : List Text) : List Edit :=
  editScriptFuel (xs.length + ys.length) xs ys

theorem editScriptFuel_nil_nil (f : Nat) : editScriptFuel f [] [] = [] := by
  cases f <;> rfl

theorem editScriptFuel_succ_nil_cons (f : Nat) (b : Text) (bs : List Text) :
    editScriptFuel (f + 1) [] (b :: bs) = .ins b :: editScriptFuel f [] bs := rfl

theorem editScriptFuel_succ_cons_nil (f : Nat) (a : Text) (as : List Text) :
    editScriptFuel (f + 1) (a :: as) [] = .del a :: editScriptFuel f as [] := rfl

theorem editScriptFuel_succ_cons_cons (f : Nat) (a : Text) (as : List Text) (b : Text)
    (bs : List Text) :
    editScriptFuel (f + 1) (a :: as) (b :: bs) =
      if a = b then .keep a :: editScriptFuel f as bs
      else if lcsLen (a :: as) bs ≤ lcsLen as (b :: bs) then
        .del a :: editScriptFuel f as (b :: bs)
      else
        .ins b :: editScriptFuel f (a :: as) bs := rfl

theorem editScriptFuel_irrel (f : Nat) :
    ∀ (g : Nat) (xs ys : List Text), xs.length + ys.length ≤ f →
      xs.length + ys.length ≤ g → editScriptFuel f xs ys = editScriptFuel g xs ys := by
  induction f with
  | zero =>
    intro g xs ys hf _
    cases xs with
    | nil =>
      cases ys with
      | nil => rw [editScriptFuel_nil_nil, editScriptFuel_nil_nil]
      | cons b bs => simp at hf
    | cons a as => simp at hf
  | succ f ih =>
    intro g xs ys hf hg
    cases xs with
    | nil =>
      cases ys with
      | nil => rw [editScriptFuel_nil_nil, editScriptFuel_nil_nil]
      | cons b bs =>
        cases g with
        | zero => simp at hg
        | succ g =>
          rw [editScriptFuel_succ_nil_cons, editScriptFuel_succ_nil_cons,
            ih g [] bs (by simp at hf ⊢; omega) (by simp at hg ⊢; omega)]
    | cons a as =>
      cases ys with
      | nil =>
        cases g with
        | zero => simp at hg
        | succ g =>
          rw [editScriptFuel_succ_cons_nil, editScriptFuel_succ_cons_nil,
            ih g as [] (by simp at hf ⊢; omega) (by simp at hg ⊢; omega)]
      | cons b bs =>
        cases g with
        | zero => simp at hg
        | succ g =>
          rw [editScriptFuel_succ_cons_cons, editScriptFuel_succ_cons_cons]
          simp only [List.length_cons] at hf hg
          by_cases hab : a = b
          · rw [if_pos hab, if_pos hab, ih g as bs (by omega) (by omega)]
          · rw [if_neg hab, if_neg hab]
            by_cases hle : lcsLen (a :: as) bs ≤ lcsLen as (b :: bs)
            · rw [if_pos hle, if_pos hle,
                ih g as (b :: bs) (by simp; omega) (by simp; omega)]
            · rw [if_neg hle, if_neg hle,
                ih g (a :: as) bs (by simp; omega) (by simp; omega)]

theorem editScript_nil_nil : editScript [] [] = [] := rfl

theorem editScript_nil_cons (b : Text) (bs : List Text) :
    editScript [] (b :: bs) = .ins b :: editScript [] bs := by
  unfold editScript
  have h : ([] : List Text).length + (b :: bs).length = ([] : List Text).length + bs.length + 1 := by
    simp
  rw [h, editScriptFuel_succ_nil_cons]

theorem editScript_cons_nil (a : Text) (as : List Text) :
    editScript (a :: as) [] = .del a :: editScript as [] := by
  unfold editScript
  have h : (a :: as).length + ([] : List Text).length = (as.length + ([] : List Text).length) + 1 := by
    simp
  rw [h, editScriptFuel_succ_cons_nil]

theorem editScript_cons_cons (a : Text) (as : List Text) (b : Text) (bs : List Text) :
    editScript (a :: as) (b :: bs) =
      if a = b then .keep a :: editScript as bs
      else if lcsLen (a :: as) bs ≤ lcsLen as (b :: bs) then
        .del a :: editScript as (b :: bs)
      else
        .ins b :: editScript (a :: as) bs := by
  unfold editScript
  have h : (a :: as).length + (b :: bs).length = (as.length + bs.length + 1) + 1 := by
    simp
    omega
  rw [h, editScriptFuel_succ_cons_cons]
  by_cases hab : a = b
  · rw [if_pos hab, if_pos hab,
      editScriptFuel_irrel _ (as.length + bs.length) as bs (by omega) (by omega)]
  · rw [if_neg hab, if_neg hab]
    by_cases hle : lcsLen (a :: as) bs ≤ lcsLen as (b :: bs)
    · rw [if_pos hle, if_pos hle,
        editScriptFuel_irrel _ (as.length + (b :: bs).length) as (b :: bs)
          (by simp; omega) (by simp)]
    · rw [if_neg hle, if_neg hle,
        editScriptFuel_irrel _ ((a :: as).length + bs.length) (a :: as) bs
          (by simp; omega) (by simp)]

/-- The change object a lone edit denotes. -/
def Edit.toChange : Edit → Change
  | .keep t => { value := t, added := false, removed := false }
  | .del t => { value := t, added := false, removed := true }
  | .ins t => { value := t, added := true, removed := false }

/-- Merge maximal runs of equally-classified edits into single change
objects, concatenating their values. -/
def mergeEdits : List Edit → List Change
  | [] => []
  | e :: es =>
    match mergeEdits es with
    | [] => [e.toChange]
    | c :: cs =>
      if e.toChange.added == c.added && e.toChange.removed == c.removed then
        { c with value := e.toChange.value ++ c.value } :: cs
      else
        e.toChange :: c :: cs

/-- Model of `diffLines(oldText, newText)` from the `diff` package:
tokenize both texts into lines, shortcut identical token lists to a
single common change, otherwise emit the merged minimal edit script. -/
def diffLines (oldT newT : Text) : List Change :=
  let oldTokens := tokenize oldT
  let newTokens := tokenize newT
  if oldTokens = newTokens then
    [{ value := newTokens.flatten, added := false, removed := false }]
  else
    mergeEdits (editScript oldTokens newTokens)

/-- Classification of one rendered diff line (the `type` field pushed at
source lines 108/118/128). -/
inductive LCKind where
  | insert
  | delete
  | normal
  deriving DecidableEq, Repr

/-- One rendered diff line, as pushed onto `hunkChanges`. -/
structure LineChange where
  typ : LCKind
  content : Text
  oldLineNumber : Option Nat
  newLineNumber : Option Nat
  deriving DecidableEq, Repr

/-- The mutable locals of the diff computation (source lines 94-100):
the accumulated `hunkChanges`, both 1-based line counters, and the
running addition/deletion counts. -/
structure FoldState where
  hunkChanges : List LineChange
  oldLineNumber : Nat
  newLineNumber : Nat
  additions : Nat
  deletions : Nat
  deriving DecidableEq, Repr

/-- The `lines.forEach` loop of an added change (source lines 106-114). -/
def emitInserts (lines : List Text) (st : FoldState) : FoldState :=
  match lines with
  | [] => st
  | line :: rest =>
    emitInserts rest
      { st with
        hunkChanges := st.hunkChanges ++
          [{ typ := .insert, content := line,
             oldLineNumber := none, newLineNumber := some st.newLineNumber }],
        newLineNumber := st.newLineNumber + 1,
        additions := st.additions + 1 }

/-- The `lines.forEach` loop of a removed change (source lines 116-124). -/
def emitDeletes (lines : List Text) (st : FoldState) : FoldState :=
  match lines with
  | [] => st
  | line :: rest =>
    emitDeletes rest
      { st with
        hunkChanges := st.hunkChanges ++
          [{ typ := .delete, content := line,
             oldLineNumber := some st.oldLineNumber, newLineNumber := none }],
        oldLineNumber := st.oldLineNumber + 1,
        deletions := st.deletions + 1 }

/-- The `lines.forEach` loop of an unchanged change (source lines 126-133). -/
def emitNormals (lines : List Text) (st : FoldState) : FoldState :=
  match lines with
  | [] => st
  | line :: rest =>
    emitNormals rest
      { st with
        hunkChanges := st.hunkChanges ++
          [{ typ := .normal, content := line,
             oldLineNumber := some st.oldLineNumber,
             newLineNumber := some st.newLineNumber }],
        oldLineNumber := st.oldLineNumber + 1,
        newLineNumber := st.newLineNumber + 1 }

/-- The body of `changes.forEach` (source lines 102-135): split the
change's value and emit one LineChange per line according to the
change's flags. -/
def applyChange (st : FoldState) (ch : Change) : FoldState :=
  let lines := segLines ch.value
  if ch.added then emitInserts lines st
  else if ch.removed then emitDeletes lines st
  else emitNormals lines st

/-- The whole `changes.forEach` fold, from the initial state
`hunkChanges = []`, counters 1, counts 0. -/
def foldChanges (changes : List Change) : FoldState :=
  changes.foldl applyChange { hunkChanges := [], oldLineNumber := 1,
                              newLineNumber := 1, additions := 0, deletions := 0 }

/-- The single hunk assembled at source lines 137-146. -/
structure Hunk where
  oldStart : Nat
  oldLines : Nat
  newStart : Nat
  newLines : Nat
  changes : List LineChange
  deriving DecidableEq, Repr

/-- The Hunk Builder's output: the hunk sequence plus the aggregate
addition/deletion counts. -/
structure DiffResult where
  hunks : List Hunk
  additions : Nat
  deletions : Nat
  deriving DecidableEq, Repr

/-- Assemble the DiffResult from a change list (source lines 94-146):
one hunk starting at 1/1 with line counts `counter - 1` when any
LineChange was emitted, no hunk otherwise. -/
def buildHunks (changes : List Change) : DiffResult :=
  let st := foldChanges changes
  { hunks :=
      if st.hunkChanges.length > 0 then
        [{ oldStart := 1, oldLines := st.oldLineNumber - 1,
           newStart := 1, newLines := st.newLineNumber - 1,
           changes := st.hunkChanges }]
      else [],
    additions := st.additions,
    deletions := st.deletions }

/-- The Hunk Builder: line-diff the two texts and fold the changes into
hunks (source lines 90-146). -/
def buildDiff (oldT newT : Text) : DiffResult :=
  buildHunks (diffLines oldT newT)

/-- Kind of a versioned content entry (`type` field of the artifact
content union). -/
inductive ContentKind where
  | code
  | text
  deriving DecidableEq, Repr

/-- One immutable snapshot in the artifact's content history.  The
`code` body is meaningful when `type = code`, the `fullMarkdown` body
when `type = text`. -/
structure VersionedContent where
  index : Nat
  type : ContentKind
  code : Text
  fullMarkdown : Text
  title : Text
  deriving DecidableEq, Repr

/-- The change descriptor carried in `additional_kwargs.artifactDiffInfo`. -/
inductive ChangeKind where
  | create
  | update
  deriving DecidableEq, Repr

/-- A comparison request: which version to show, and for updates which
prior version to compare against. -/
structure DiffInfo where
  changeType : ChangeKind
  artifactIndex : Nat
  previousIndex : Option Nat
  deriving DecidableEq, Repr

/-- The Version Resolver's successful output. -/
structure Resolved where
  oldText : Text
  newText : Text
  fileName : Text
  deriving DecidableEq, Repr

/-- The Version Resolver (source lines 57-87): look up the current
content by `artifactIndex` (`none` when absent), look up the previous
content by `previousIndex` for updates, pick bodies by kind with a
kind-mismatch falling back to the empty old text, and force the old
text empty for creations. -/
def resolve (contents : List VersionedContent) (info : DiffInfo) : Option Resolved :=
  let currentContent? := contents.find? (fun c => c.index == info.artifactIndex)
  let previousContent : Option VersionedContent :=
    if info.changeType = ChangeKind.update then
      contents.find? (fun c => some c.index == info.previousIndex)
    else none
  match currentContent? with
  | none => none
  | some currentContent =>
    let fileName : Text :=
      if currentContent.title = [] then "Untitled".toList else currentContent.title
    let newText : Text :=
      if currentContent.type = ContentKind.code then currentContent.code
      else currentContent.fullMarkdown
    let oldText : Text :=
      if currentContent.type = ContentKind.code then
        match previousContent with
        | some p => if p.type = ContentKind.code then p.code else []
        | none => []
      else
        match previousContent with
        | some p => if p.type = ContentKind.text then p.fullMarkdown else []
        | none => []
    let oldText' : Text := if info.changeType = ChangeKind.create then [] else oldText
    some { oldText := oldText', newText := newText, fileName := fileName }

/-- Resolver followed by Hunk Builder: the diff computed for one
history/descriptor pair, `none` when resolution fails. -/
def computeDiffFor (contents : List VersionedContent) (info : DiffInfo) :
    Option DiffResult :=
  (resolve contents info).map (fun r => buildDiff r.oldText r.newText)

/-- The internal error the catch block recovers from (source lines
160-162). -/
inductive DiffError where
  | computationFailed
  deriving DecidableEq, Repr

/-- The component-local render state touched by the effect: the diff
files, the stats and the open flag. -/
structure PanelState where
  diffFiles : List DiffResult
  statsAdditions : Nat
  statsDeletions : Nat
  panelOpen : Bool
  deriving DecidableEq, Repr

/-- The try/catch around the diff computation (source lines 90-162):
the fallible line-diff step either yields a change list, in which case
the state is replaced wholesale by the assembled result, or raises, in
which case the error is only logged and the previous state is kept
untouched. -/
def renderDiffStep (s : PanelState) (res : Except DiffError (List Change)) :
    PanelState × List DiffError :=
  match res with
  | Except.error e => (s, [e])
  | Except.ok changes =>
    let r := buildHunks changes
    ({ diffFiles := [r], statsAdditions := r.additions,
       statsDeletions := r.deletions, panelOpen := true }, [])

/-- Closed form of the LineChanges emitted for an added change's lines,
starting at new-line counter `n`. -/
def insChanges : List Text → Nat → List LineChange
  | [], _ => []
  | l :: ls, n =>
    { typ := .insert, content := l, oldLineNumber := none, newLineNumber := some n } ::
      insChanges ls (n + 1)

/-- Closed form of the LineChanges emitted for a removed change's lines,
starting at old-line counter `o`. -/
def delChanges : List Text → Nat → List LineChange
  | [], _ => []
  | l :: ls, o =>
    { typ := .delete, content := l, oldLineNumber := some o, newLineNumber := none } ::
      delChanges ls (o + 1)

/-- Closed form of the LineChanges emitted for an unchanged change's
lines, starting at counters `o` and `n`. -/
def normChanges : List Text → Nat → Nat → List LineChange
  | [], _, _ => []
  | l :: ls, o, n =>
    { typ := .normal, content := l, oldLineNumber := some o, newLineNumber := some n } ::
      normChanges ls (o + 1) (n + 1)

theorem emitInserts_eq (lines : List Text) (st : FoldState) :
    emitInserts lines st =
      { st with
        hunkChanges := st.hunkChanges ++ insChanges lines st.newLineNumber,
        newLineNumber := st.newLineNumber + lines.length,
        additions := st.additions + lines.length } := by
  induction lines generalizing st with
  | nil => simp [emitInserts, insChanges]
  | cons l ls ih =>
    simp only [emitInserts, insChanges, ih, List.append_assoc, List.singleton_append,
      List.length_cons]
    congr 1 <;> omega

theorem emitDeletes_eq (lines : List Text) (st : FoldState) :
    emitDeletes lines st =
      { st with
        hunkChanges := st.hunkChanges ++ delChanges lines st.oldLineNumber,
        oldLineNumber := st.oldLineNumber + lines.length,
        deletions := st.deletions + lines.length } := by
  induction lines generalizing st with
  | nil => simp [emitDeletes, delChanges]
  | cons l ls ih =>
    simp only [emitDeletes, delChanges, ih, List.append_assoc, List.singleton_append,
      List.length_cons]
    congr 1 <;> omega

theorem emitNormals_eq (lines : List Text) (st : FoldState) :
    emitNormals lines st =
      { st with
        hunkChanges := st.hunkChanges ++ normChanges lines st.oldLineNumber st.newLineNumber,
        oldLineNumber := st.oldLineNumber + lines.length,
        newLineNumber := st.newLineNumber + lines.length } := by
  induction lines generalizing st with
  | nil => simp [emitNormals, normChanges]
  | cons l ls ih =>
    simp only [emitNormals, normChanges, ih, List.append_assoc, List.singleton_append,
      List.length_cons]
    congr 1 <;> omega

/-- Number of LineChanges of a given kind in a list. -/
def countKind (k : LCKind) (cs : List LineChange) : Nat :=
  cs.countP (fun c => c.typ == k)

/-- The old-line numbers carried by a list of LineChanges, in order. -/
def oldNums (cs : List LineChange) : List Nat :=
  cs.filterMap (fun c => c.oldLineNumber)

/-- The new-line numbers carried by a list of LineChanges, in order. -/
def newNums (cs : List LineChange) : List Nat :=
  cs.filterMap (fun c => c.newLineNumber)

theorem countKind_append (k : LCKind) (a b : List LineChange) :
    countKind k (a ++ b) = countKind k a + countKind k b := by
  simp [countKind, List.countP_append]

theorem oldNums_append (a b : List LineChange) :
    oldNums (a ++ b) = oldNums a ++ oldNums b := by
  simp [oldNums, List.filterMap_append]

theorem newNums_append (a b : List LineChange) :
    newNums (a ++ b) = newNums a ++ newNums b := by
  simp [newNums, List.filterMap_append]

theorem countKind_insChanges (k : LCKind) (ls : List Text) (n : Nat) :
    countKind k (insChanges ls n) = if k = LCKind.insert then ls.length else 0 := by
  induction ls generalizing n with
  | nil => simp [insChanges, countKind]
  | cons l ls ih =>
    have h := ih (n + 1)
    simp only [countKind] at h
    simp only [insChanges, countKind, List.countP_cons, h]
    cases k <;> simp

theorem countKind_delChanges (k : LCKind) (ls : List Text) (o : Nat) :
    countKind k (delChanges ls o) = if k = LCKind.delete then ls.length else 0 := by
  induction ls generalizing o with
  | nil => simp [delChanges, countKind]
  | cons l ls ih =>
    have h := ih (o + 1)
    simp only [countKind] at h
    simp only [delChanges, countKind, List.countP_cons, h]
    cases k <;> simp

theorem countKind_normChanges (k : LCKind) (ls : List Text) (o n : Nat) :
    countKind k (normChanges ls o n) = if k = LCKind.normal then ls.length else 0 := by
  induction ls generalizing o n with
  | nil => simp [normChanges, countKind]
  | cons l ls ih =>
    have h := ih (o + 1) (n + 1)
    simp only [countKind] at h
    simp only [normChanges, countKind, List.countP_cons, h]
    cases k <;> simp

theorem oldNums_insChanges (ls : List Text) (n : Nat) :
    oldNums (insChanges ls n) = [] := by
  induction ls generalizing n with
  | nil => simp [insChanges, oldNums]
  | cons l ls ih =>
    have h := ih (n + 1)
    simp only [oldNums] at h
    simp [insChanges, oldNums, List.filterMap_cons, h]

theorem newNums_delChanges (ls : List Text) (o : Nat) :
    newNums (delChanges ls o) = [] := by
  induction ls generalizing o with
  | nil => simp [delChanges, newNums]
  | cons l ls ih =>
    have h := ih (o + 1)
    simp only [newNums] at h
    simp [delChanges, newNums, List.filterMap_cons, h]

theorem newNums_insChanges_mem (ls : List Text) (n : Nat) :
    ∀ x ∈ newNums (insChanges ls n), n ≤ x ∧ x < n + ls.length := by
  induction ls generalizing n with
  | nil => simp [insChanges, newNums]
  | cons l ls ih =>
    intro x hx
    simp only [insChanges, newNums, List.filterMap_cons] at hx
    rcases List.mem_cons.mp hx with rfl | hx
    · simp only [List.length_cons]
      omega
    · have := ih (n + 1) x (by simpa [newNums] using hx)
      simp only [List.length_cons]
      omega

theorem newNums_insChanges_pairwise (ls : List Text) (n : Nat) :
    (newNums (insChanges ls n)).Pairwise (· < ·) := by
  induction ls generalizing n with
  | nil => simp [insChanges, newNums]
  | cons l ls ih =>
    simp only [insChanges, newNums, List.filterMap_cons]
    refine List.Pairwise.cons ?_ (by simpa [newNums] using ih (n + 1))
    intro x hx
    have := newNums_insChanges_mem ls (n + 1) x (by simpa [newNums] using hx)
    omega

theorem oldNums_delChanges_mem (ls : List Text) (o : Nat) :
    ∀ x ∈ oldNums (delChanges ls o), o ≤ x ∧ x < o + ls.length := by
  induction ls generalizing o with
  | nil => simp [delChanges, oldNums]
  | cons l ls ih =>
    intro x hx
    simp only [delChanges, oldNums, List.filterMap_cons] at hx
    rcases List.mem_cons.mp hx with rfl | hx
    · simp only [List.length_cons]
      omega
    · have := ih (o + 1) x (by simpa [oldNums] using hx)
      simp only [List.length_cons]
      omega

theorem oldNums_delChanges_pairwise (ls : List Text) (o : Nat) :
    (oldNums (delChanges ls o)).Pairwise (· < ·) := by
  induction ls generalizing o with
  | nil => simp [delChanges, oldNums]
  | cons l ls ih =>
    simp only [delChanges, oldNums, List.filterMap_cons]
    refine List.Pairwise.cons ?_ (by simpa [oldNums] using ih (o + 1))
    intro x hx
    have := oldNums_delChanges_mem ls (o + 1) x (by simpa [oldNums] using hx)
    omega

theorem oldNums_normChanges_mem (ls : List Text) (o n : Nat) :
    ∀ x ∈ oldNums (normChanges ls o n), o ≤ x ∧ x < o + ls.length := by
  induction ls generalizing o n with
  | nil => simp [normChanges, oldNums]
  | cons l ls ih =>
    intro x hx
    simp only [normChanges, oldNums, List.filterMap_cons] at hx
    rcases List.mem_cons.mp hx with rfl | hx
    · simp only [List.length_cons]
      omega
    · have := ih (o + 1) (n + 1) x (by simpa [oldNums] using hx)
      simp only [List.length_cons]
      omega

theorem oldNums_normChanges_pairwise (ls : List Text) (o n : Nat) :
    (oldNums (normChanges ls o n)).Pairwise (· < ·) := by
  induction ls generalizing o n with
  | nil => simp [normChanges, oldNums]
  | cons l ls ih =>
    simp only [normChanges, oldNums, List.filterMap_cons]
    refine List.Pairwise.cons ?_ (by simpa [oldNums] using ih (o + 1) (n + 1))
    intro x hx
    have := oldNums_normChanges_mem ls (o + 1) (n + 1) x (by simpa [oldNums] using hx)
    omega

theorem newNums_normChanges_mem (ls : List Text) (o n : Nat) :
    ∀ x ∈ newNums (normChanges ls o n), n ≤ x ∧ x < n + ls.length := by
  induction ls generalizing o n with
  | nil => simp [normChanges, newNums]
  | cons l ls ih =>
    intro x hx
    simp only [normChanges, newNums, List.filterMap_cons] at hx
    rcases List.mem_cons.mp hx with rfl | hx
    · simp only [List.length_cons]
      omega
    · have := ih (o + 1) (n + 1) x (by simpa [newNums] using hx)
      simp only [List.length_cons]
      omega

theorem newNums_normChanges_pairwise (ls : List Text) (o n : Nat) :
    (newNums (normChanges ls o n)).Pairwise (· < ·) := by
  induction ls generalizing o n with
  | nil => simp [normChanges, newNums]
  | cons l ls ih =>
    simp only [normChanges, newNums, List.filterMap_cons]
    refine List.Pairwise.cons ?_ (by simpa [newNums] using ih (o + 1) (n + 1))
    intro x hx
    have := newNums_normChanges_mem ls (o + 1) (n + 1) x (by simpa [newNums] using hx)
    omega

/-- Invariant: the running counts agree with the kinds of the emitted
LineChanges. -/
def countsOk (st : FoldState) : Prop :=
  st.additions = countKind LCKind.insert st.hunkChanges ∧
  st.deletions = countKind LCKind.delete st.hunkChanges

theorem applyChange_countsOk (st : FoldState) (ch : Change) (h : countsOk st) :
    countsOk (applyChange st ch) := by
  obtain ⟨h1, h2⟩ := h
  cases hA : ch.added <;> cases hR : ch.removed <;>
    simp [applyChange, hA, hR, emitInserts_eq, emitDeletes_eq, emitNormals_eq,
      countsOk, countKind_append, countKind_insChanges, countKind_delChanges,
      countKind_normChanges, h1, h2]

theorem foldl_countsOk (changes : List Change) :
    ∀ st : FoldState, countsOk st → countsOk (changes.foldl applyChange st) := by
  induction changes with
  | nil => intro st h; simpa using h
  | cons ch chs ih =>
    intro st h
    simpa using ih (applyChange st ch) (applyChange_countsOk st ch h)

theorem foldChanges_countsOk (changes : List Change) : countsOk (foldChanges changes) := by
  refine foldl_countsOk changes _ ?_
  constructor <;> simp [countKind]

/-- Invariant: the carried line numbers are 1-based, strictly increasing
in emission order, and bounded by the current counters. -/
def numsOk (st : FoldState) : Prop :=
  (oldNums st.hunkChanges).Pairwise (· < ·) ∧
  (newNums st.hunkChanges).Pairwise (· < ·) ∧
  (∀ x ∈ oldNums st.hunkChanges, 1 ≤ x ∧ x < st.oldLineNumber) ∧
  (∀ x ∈ newNums st.hunkChanges, 1 ≤ x ∧ x < st.newLineNumber) ∧
  1 ≤ st.oldLineNumber ∧ 1 ≤ st.newLineNumber

theorem numsOk_emitInserts (lines : List Text) (st : FoldState) (h : numsOk st) :
    numsOk (emitInserts lines st) := by
  obtain ⟨hop, hnp, hob, hnb, ho1, hn1⟩ := h
  rw [emitInserts_eq]
  unfold numsOk
  dsimp only
  refine ⟨?_, ?_, ?_, ?_, ?_, ?_⟩
  · simpa [oldNums_append, oldNums_insChanges] using hop
  · rw [newNums_append]
    refine List.pairwise_append.mpr ⟨hnp, newNums_insChanges_pairwise _ _, ?_⟩
    intro x hx y hy
    have hxb := hnb x hx
    have hyb := newNums_insChanges_mem lines st.newLineNumber y hy
    omega
  · intro x hx
    rw [oldNums_append, oldNums_insChanges, List.append_nil] at hx
    exact hob x hx
  · intro x hx
    rw [newNums_append] at hx
    rcases List.mem_append.mp hx with hx | hx
    · have := hnb x hx; omega
    · have := newNums_insChanges_mem lines st.newLineNumber x hx; omega
  · exact ho1
  · omega

theorem numsOk_emitDeletes (lines : List Text) (st : FoldState) (h : numsOk st) :
    numsOk (emitDeletes lines st) := by
  obtain ⟨hop, hnp, hob, hnb, ho1, hn1⟩ := h
  rw [emitDeletes_eq]
  unfold numsOk
  dsimp only
  refine ⟨?_, ?_, ?_, ?_, ?_, ?_⟩
  · rw [oldNums_append]
    refine List.pairwise_append.mpr ⟨hop, oldNums_delChanges_pairwise _ _, ?_⟩
    intro x hx y hy
    have hxb := hob x hx
    have hyb := oldNums_delChanges_mem lines st.oldLineNumber y hy
    omega
  · simpa [newNums_append, newNums_delChanges] using hnp
  · intro x hx
    rw [oldNums_append] at hx
    rcases List.mem_append.mp hx with hx | hx
    · have := hob x hx; omega
    · have := oldNums_delChanges_mem lines st.oldLineNumber x hx; omega
  · intro x hx
    rw [newNums_append, newNums_delChanges, List.append_nil] at hx
    exact hnb x hx
  · omega
  · exact hn1

theorem numsOk_emitNormals (lines : List Text) (st : FoldState) (h : numsOk st) :
    numsOk (emitNormals lines st) := by
  obtain ⟨hop, hnp, hob, hnb, ho1, hn1⟩ := h
  rw [emitNormals_eq]
  unfold numsOk
  dsimp only
  refine ⟨?_, ?_, ?_, ?_, ?_, ?_⟩
  · rw [oldNums_append]
    refine List.pairwise_append.mpr ⟨hop, oldNums_normChanges_pairwise _ _ _, ?_⟩
    intro x hx y hy
    have hxb := hob x hx
    have hyb := oldNums_normChanges_mem lines st.oldLineNumber st.newLineNumber y hy
    omega
  · rw [newNums_append]
    refine List.pairwise_append.mpr ⟨hnp, newNums_normChanges_pairwise _ _ _, ?_⟩
    intro x hx y hy
    have hxb := hnb x hx
    have hyb := newNums_normChanges_mem lines st.oldLineNumber st.newLineNumber y hy
    omega
  · intro x hx
    rw [oldNums_append] at hx
    rcases List.mem_append.mp hx with hx | hx
    · have := hob x hx; omega
    · have := oldNums_normChanges_mem lines st.oldLineNumber st.newLineNumber x hx; omega
  · intro x hx
    rw [newNums_append] at hx
    rcases List.mem_append.mp hx with hx | hx
    · have := hnb x hx; omega
    · have := newNums_normChanges_mem lines st.oldLineNumber st.newLineNumber x hx; omega
  · omega
  · omega

theorem applyChange_numsOk (st : FoldState) (ch : Change) (h : numsOk st) :
    numsOk (applyChange st ch) := by
  cases hA : ch.added <;> cases hR : ch.removed <;>
    simp only [applyChange, hA, hR, if_true, if_false, Bool.false_eq_true,
      ite_true, ite_false] <;>
    first
      | exact numsOk_emitInserts _ _ h
      | exact numsOk_emitDeletes _ _ h
      | exact numsOk_emitNormals _ _ h

theorem foldl_numsOk (changes : List Change) :
    ∀ st : FoldState, numsOk st → numsOk (changes.foldl applyChange st) := by
  induction changes with
  | nil => intro st h; simpa using h
  | cons ch chs ih =>
    intro st h
    simpa using ih (applyChange st ch) (applyChange_numsOk st ch h)

theorem foldChanges_numsOk (changes : List Change) : numsOk (foldChanges changes) := by
  refine foldl_numsOk changes _ ?_
  refine ⟨?_, ?_, ?_, ?_, ?_, ?_⟩ <;> simp [oldNums, newNums]

theorem splitNl_ne_nil (s : Text) : splitNl s ≠ [] := by
  cases s with
  | nil => simp [splitNl]
  | cons c rest =>
    simp only [splitNl]
    cases splitNl rest with
    | nil => simp
    | cons l ls =>
      by_cases h : c = '\n' <;> simp [h]

theorem tokenize_ne_nil (c : Char) (rest : Text) : tokenize (c :: rest) ≠ [] := by
  simp only [tokenize]
  by_cases h : c = '\n'
  · simp [h]
  · simp only [h, if_false]
    cases tokenize rest <;> simp

theorem tokenize_eq_nil_iff (s : Text) : tokenize s = [] ↔ s = [] := by
  cases s with
  | nil => simp [tokenize]
  | cons c rest => simp [tokenize_ne_nil]

theorem tokenize_flatten (s : Text) : (tokenize s).flatten = s := by
  induction s with
  | nil => simp [tokenize]
  | cons c rest ih =>
    simp only [tokenize]
    by_cases h : c = '\n'
    · simp [h, ih]
    · simp only [h, if_false]
      cases ht : tokenize rest with
      | nil =>
        have : rest = [] := (tokenize_eq_nil_iff rest).mp ht
        simp [this]
      | cons t ts =>
        rw [ht] at ih
        simp only [List.flatten_cons] at ih ⊢
        simp [← ih]

theorem endsWithNl_cons₂ (a b : Char) (l : Text) :
    endsWithNl (a :: b :: l) = endsWithNl (b :: l) := by
  simp [endsWithNl]

theorem endsWithNl_append_singleton (xs : Text) (c : Char) :
    endsWithNl (xs ++ [c]) = (c == '\n') := by
  induction xs with
  | nil => simp [endsWithNl]
  | cons x xs ih =>
    cases xs with
    | nil => simp [endsWithNl]
    | cons y ys => simpa [endsWithNl_cons₂] using ih

theorem splitNl_no_nl (l : Text) (h : '\n' ∉ l) : splitNl l = [l] := by
  induction l with
  | nil => simp [splitNl]
  | cons c rest ih =>
    have hc : c ≠ '\n' := fun hc => h (hc ▸ List.mem_cons_self c rest)
    have hr : '\n' ∉ rest := fun hr => h (List.mem_cons_of_mem c hr)
    simp [splitNl, ih hr, hc]

theorem splitNl_append_nl (l : Text) (h : '\n' ∉ l) :
    splitNl (l ++ ['\n']) = [l, []] := by
  induction l with
  | nil => simp [splitNl]
  | cons c rest ih =>
    have hc : c ≠ '\n' := fun hc => h (hc ▸ List.mem_cons_self c rest)
    have hr : '\n' ∉ rest := fun hr => h (List.mem_cons_of_mem c hr)
    simp [splitNl, ih hr, hc]

theorem splitNl_cons_eq (c : Char) (rest : Text) (f : Text) (fs : List Text)
    (h : splitNl rest = f :: fs) :
    splitNl (c :: rest) = if c = '\n' then [] :: f :: fs else (c :: f) :: fs := by
  rw [splitNl, h]

theorem segLines_nil : segLines [] = [] := by decide

theorem segLines_no_nl (l : Text) (hne : l ≠ []) (h : '\n' ∉ l) : segLines l = [l] := by
  simp [segLines, splitNl_no_nl l h, hne]

theorem segLines_append_nl (l : Text) (h : '\n' ∉ l) :
    segLines (l ++ ['\n']) = [l, []] := by
  simp [segLines, splitNl_append_nl l h, endsWithNl_append_singleton]

theorem exists_nonempty_field (A : Text) (hne : A ≠ []) (hew : endsWithNl A = false) :
    ∃ l ∈ splitNl A, l ≠ [] := by
  induction A with
  | nil => exact absurd rfl hne
  | cons c rest ih =>
    cases rest with
    | nil =>
      have hc : c ≠ '\n' := by
        simpa [endsWithNl] using hew
      refine ⟨[c], ?_, by simp⟩
      simp [splitNl, hc]
    | cons d ds =>
      have hew' : endsWithNl (d :: ds) = false := by
        simpa [endsWithNl_cons₂] using hew
      obtain ⟨l, hl, hlne⟩ := ih (by simp) hew'
      cases hs : splitNl (d :: ds) with
      | nil => exact absurd hs (splitNl_ne_nil _)
      | cons f fs =>
        rw [hs] at hl
        rw [splitNl_cons_eq c (d :: ds) f fs hs]
        by_cases hc : c = '\n'
        · refine ⟨l, ?_, hlne⟩
          simp only [hc, if_pos rfl]
          exact List.mem_cons_of_mem _ hl
        · rcases List.mem_cons.mp hl with rfl | hlf
          · exact ⟨c :: l, by simp [hc], by simp⟩
          · exact ⟨l, by simp [hc, hlf], hlne⟩

theorem segLines_eq_nil_iff (A : Text) : segLines A = [] ↔ A = [] := by
  constructor
  · intro h
    by_contra hne
    cases hew : endsWithNl A with
    | true =>
      have : segLines A = splitNl A := by
        simp [segLines, hew]
      exact splitNl_ne_nil A (this ▸ h)
    | false =>
      obtain ⟨l, hl, hlne⟩ := exists_nonempty_field A hne hew
      have : l ∈ segLines A := by
        simp only [segLines, List.mem_filter]
        exact ⟨hl, by simp [hlne]⟩
      rw [h] at this
      exact absurd this (List.not_mem_nil l)
  · intro h
    rw [h]
    exact segLines_nil

theorem editScript_nil_left (ts : List Text) : editScript [] ts = ts.map Edit.ins := by
  induction ts with
  | nil => rfl
  | cons b bs ih => rw [editScript_nil_cons, ih]; rfl

theorem mergeEdits_ins_run (b : Text) (bs : List Text) :
    mergeEdits ((b :: bs).map Edit.ins) = [{ value := (b :: bs).flatten, added := true, removed := false }] := by
  induction bs generalizing b with
  | nil => simp [mergeEdits, Edit.toChange]
  | cons d ds ih =>
    simp only [List.map_cons] at ih ⊢
    rw [mergeEdits, ih d]
    simp [Edit.toChange]

theorem editScript_append_single (p : List Text) (a b : Text) (hab : a ≠ b) :
    editScript (p ++ [a]) (p ++ [b]) = p.map Edit.keep ++ [Edit.del a, Edit.ins b] := by
  induction p with
  | nil =>
    simp only [List.nil_append, List.map_nil]
    rw [editScript_cons_cons, if_neg hab, lcsLen_nil_right, lcsLen_nil_left,
      if_pos (Nat.le_refl 0), editScript_nil_cons, editScript_nil_nil]
  | cons x xs ih =>
    rw [List.cons_append, List.cons_append, editScript_cons_cons, if_pos rfl, ih]
    simp

theorem mergeEdits_keep_run (x : Text) (xs : List Text) (a b : Text) :
    mergeEdits ((x :: xs).map Edit.keep ++ [Edit.del a, Edit.ins b]) =
      [{ value := (x :: xs).flatten, added := false, removed := false },
       { value := a, added := false, removed := true },
       { value := b, added := true, removed := false }] := by
  induction xs generalizing x with
  | nil => simp [mergeEdits, Edit.toChange]
  | cons y ys ih =>
    simp only [List.map_cons, List.cons_append] at ih ⊢
    rw [mergeEdits, ih y]
    simp [Edit.toChange]

theorem mergeEdits_del_ins (a b : Text) :
    mergeEdits [Edit.del a, Edit.ins b] =
      [{ value := a, added := false, removed := true },
       { value := b, added := true, removed := false }] := by
  simp [mergeEdits, Edit.toChange]

theorem tokenize_cons_eq (c : Char) (rest : Text) (t : Text) (ts : List Text)
    (h : tokenize rest = t :: ts) :
    tokenize (c :: rest) = if c = '\n' then ['\n'] :: t :: ts else (c :: t) :: ts := by
  rw [tokenize, h]

theorem tokenize_decomp (A : Text) (hne : A ≠ []) (hew : endsWithNl A = false) :
    ∃ p l, tokenize A = p ++ [l] ∧ tokenize (A ++ ['\n']) = p ++ [l ++ ['\n']] ∧
      l ≠ [] ∧ '\n' ∉ l := by
  induction A with
  | nil => exact absurd rfl hne
  | cons c rest ih =>
    cases rest with
    | nil =>
      have hc : c ≠ '\n' := by simpa [endsWithNl] using hew
      refine ⟨[], [c], ?_, ?_, by simp,
        fun hm => hc ((List.mem_singleton.mp hm).symm)⟩
      · simp [tokenize, hc]
      · simp [tokenize, hc]
    | cons d ds =>
      have hew' : endsWithNl (d :: ds) = false := by
        simpa [endsWithNl_cons₂] using hew
      obtain ⟨p, l, h1, h2, hlne, hlnl⟩ := ih (by simp) hew'
      have harr : (c :: d :: ds) ++ ['\n'] = c :: ((d :: ds) ++ ['\n']) := by simp
      by_cases hc : c = '\n'
      · refine ⟨['\n'] :: p, l, ?_, ?_, hlne, hlnl⟩
        · cases p with
          | nil =>
            simp only [List.nil_append] at h1
            rw [tokenize_cons_eq c (d :: ds) l [] h1, if_pos hc]
            simp
          | cons q qs =>
            rw [List.cons_append] at h1
            rw [tokenize_cons_eq c (d :: ds) q (qs ++ [l]) h1, if_pos hc]
            simp
        · rw [harr]
          cases p with
          | nil =>
            simp only [List.nil_append] at h2
            rw [tokenize_cons_eq c ((d :: ds) ++ ['\n']) (l ++ ['\n']) [] h2, if_pos hc]
            simp
          | cons q qs =>
            rw [List.cons_append] at h2
            rw [tokenize_cons_eq c ((d :: ds) ++ ['\n']) q (qs ++ [l ++ ['\n']]) h2,
              if_pos hc]
            simp
      · cases p with
        | nil =>
          simp only [List.nil_append] at h1 h2
          refine ⟨[], c :: l, ?_, ?_, by simp, ?_⟩
          · rw [tokenize_cons_eq c (d :: ds) l [] h1, if_neg hc]
            simp
          · rw [harr, tokenize_cons_eq c ((d :: ds) ++ ['\n']) (l ++ ['\n']) [] h2,
              if_neg hc]
            simp
          · intro hmem
            rcases List.mem_cons.mp hmem with h | h
            · exact hc h.symm
            · exact hlnl h
        | cons q qs =>
          rw [List.cons_append] at h1 h2
          refine ⟨(c :: q) :: qs, l, ?_, ?_, hlne, hlnl⟩
          · rw [tokenize_cons_eq c (d :: ds) q (qs ++ [l]) h1, if_neg hc]
            simp
          · rw [harr, tokenize_cons_eq c ((d :: ds) ++ ['\n']) q (qs ++ [l ++ ['\n']]) h2,
              if_neg hc]
            simp

/-- Sum over all hunks of the number of LineChanges satisfying `p`. -/
def hunksCountP (p : LineChange → Bool) (r : DiffResult) : Nat :=
  (r.hunks.map (fun h => h.changes.countP p)).sum

theorem buildHunks_countP (p : LineChange → Bool) (changes : List Change) :
    hunksCountP p (buildHunks changes) = (foldChanges changes).hunkChanges.countP p := by
  unfold hunksCountP buildHunks
  dsimp only
  by_cases h : (foldChanges changes).hunkChanges.length > 0
  · simp [h]
  · have : (foldChanges changes).hunkChanges = [] := by
      cases hchs : (foldChanges changes).hunkChanges with
      | nil => rfl
      | cons a as => rw [hchs] at h; simp at h
    simp [h, this]

/-- A LineChange that is an inserted empty line. -/
def isInsEmpty (c : LineChange) : Bool :=
  c.typ == LCKind.insert && c.content.isEmpty

/-- A LineChange that is a deleted empty line. -/
def isDelEmpty (c : LineChange) : Bool :=
  c.typ == LCKind.delete && c.content.isEmpty

theorem countP_isInsEmpty_insChanges (ls : List Text) (n : Nat) :
    (insChanges ls n).countP isInsEmpty = ls.countP (fun l => l.isEmpty) := by
  induction ls generalizing n with
  | nil => simp [insChanges]
  | cons l ls ih =>
    simp [insChanges, List.countP_cons, ih (n + 1), isInsEmpty]

theorem countP_isInsEmpty_delChanges (ls : List Text) (o : Nat) :
    (delChanges ls o).countP isInsEmpty = 0 := by
  induction ls generalizing o with
  | nil => simp [delChanges]
  | cons l ls ih =>
    simp [delChanges, List.countP_cons, ih (o + 1), isInsEmpty]

theorem countP_isInsEmpty_normChanges (ls : List Text) (o n : Nat) :
    (normChanges ls o n).countP isInsEmpty = 0 := by
  induction ls generalizing o n with
  | nil => simp [normChanges]
  | cons l ls ih =>
    simp [normChanges, List.countP_cons, ih (o + 1) (n + 1), isInsEmpty]

theorem countP_isDelEmpty_delChanges (ls : List Text) (o : Nat) :
    (delChanges ls o).countP isDelEmpty = ls.countP (fun l => l.isEmpty) := by
  induction ls generalizing o with
  | nil => simp [delChanges]
  | cons l ls ih =>
    simp [delChanges, List.countP_cons, ih (o + 1), isDelEmpty]

theorem countP_isDelEmpty_insChanges (ls : List Text) (n : Nat) :
    (insChanges ls n).countP isDelEmpty = 0 := by
  induction ls generalizing n with
  | nil => simp [insChanges]
  | cons l ls ih =>
    simp [insChanges, List.countP_cons, ih (n + 1), isDelEmpty]

theorem countP_isDelEmpty_normChanges (ls : List Text) (o n : Nat) :
    (normChanges ls o n).countP isDelEmpty = 0 := by
  induction ls generalizing o n with
  | nil => simp [normChanges]
  | cons l ls ih =>
    simp [normChanges, List.countP_cons, ih (o + 1) (n + 1), isDelEmpty]

theorem find?_unique_mem (p : VersionedContent → Bool) (contents : List VersionedContent)
    (hu : contents.Pairwise (fun a b => a.index ≠ b.index))
    (e : VersionedContent) (he : e ∈ contents) (hpe : p e = true)
    (hidx : ∀ c, p c = true → c.index = e.index) :
    contents.find? p = some e := by
  induction contents with
  | nil => cases he
  | cons x xs ih =>
    rcases List.mem_cons.mp he with rfl | hexs
    · rw [List.find?_cons_of_pos _ hpe]
    · have hpx : ¬ p x = true := by
        intro hx
        have h1 : x.index = e.index := hidx x hx
        have h2 : x.index ≠ e.index := (List.pairwise_cons.mp hu).1 e hexs
        exact h2 h1
      rw [List.find?_cons_of_neg _ hpx]
      exact ih (List.pairwise_cons.mp hu).2 hexs

theorem normChanges_eq_nil_iff (ls : List Text) (o n : Nat) :
    normChanges ls o n = [] ↔ ls = [] := by
  cases ls <;> simp [normChanges]

theorem typ_mem_normChanges (ls : List Text) (o n : Nat) :
    ∀ c ∈ normChanges ls o n, c.typ = LCKind.normal := by
  induction ls generalizing o n with
  | nil => simp [normChanges]
  | cons l ls ih =>
    intro c hc
    rcases List.mem_cons.mp hc with rfl | hc
    · rfl
    · exact ih (o + 1) (n + 1) c hc

theorem typ_mem_insChanges (ls : List Text) (n : Nat) :
    ∀ c ∈ insChanges ls n, c.typ = LCKind.insert := by
  induction ls generalizing n with
  | nil => simp [insChanges]
  | cons l ls ih =>
    intro c hc
    rcases List.mem_cons.mp hc with rfl | hc
    · rfl
    · exact ih (n + 1) c hc

theorem diffLines_self (A : Text) :
    diffLines A A = [{ value := A, added := false, removed := false }] := by
  simp [diffLines, tokenize_flatten]

theorem foldChanges_self (A : Text) :
    foldChanges (diffLines A A) =
      { hunkChanges := normChanges (segLines A) 1 1,
        oldLineNumber := 1 + (segLines A).length,
        newLineNumber := 1 + (segLines A).length,
        additions := 0, deletions := 0 } := by
  rw [diffLines_self, foldChanges, List.foldl_cons, List.foldl_nil]
  simp only [applyChange, Bool.false_eq_true, if_false]
  rw [emitNormals_eq]
  simp

/-- C1: the claim as frozen is false — for a nonempty text A,
`buildDiff(A, A)` emits one hunk made of unchanged lines, not zero
hunks.  Amended: `buildDiff(A, A)` always has additions = 0 and
deletions = 0 and only unchanged LineChanges, and its hunk sequence is
empty exactly when A is the empty text. -/
theorem c1_identical_texts (A : Text) :
    (buildDiff A A).additions = 0 ∧ (buildDiff A A).deletions = 0 ∧
    ((buildDiff A A).hunks = [] ↔ A = []) ∧
    ∀ hk ∈ (buildDiff A A).hunks, ∀ c ∈ hk.changes, c.typ = LCKind.normal := by
  unfold buildDiff buildHunks
  rw [foldChanges_self A]
  dsimp only
  refine ⟨rfl, rfl, ?_, ?_⟩
  · by_cases hA : A = []
    · subst hA
      simp [segLines_nil, normChanges]
    · have h1 : segLines A ≠ [] := fun h => hA ((segLines_eq_nil_iff A).mp h)
      have h2 : normChanges (segLines A) 1 1 ≠ [] :=
        fun h => h1 ((normChanges_eq_nil_iff _ 1 1).mp h)
      have h3 : (normChanges (segLines A) 1 1).length > 0 := List.length_pos.mpr h2
      simp [h3, hA]
  · intro hk hmem
    by_cases h3 : (normChanges (segLines A) 1 1).length > 0
    · rw [if_pos h3] at hmem
      rcases List.mem_singleton.mp hmem with rfl
      exact typ_mem_normChanges (segLines A) 1 1
    · rw [if_neg h3] at hmem
      exact absurd hmem (List.not_mem_nil hk)

/-- C1 counterexample: on the identical pair ("a", "a") the DiffResult
has one hunk, so the frozen claim's "zero hunks" part fails. -/
theorem c1_counterexample :
    ¬((buildDiff ['a'] ['a']).hunks = [] ∧ (buildDiff ['a'] ['a']).additions = 0 ∧
      (buildDiff ['a'] ['a']).deletions = 0) := by
  decide

/-- C1 witness: the amended statement evaluated on the pair ("a", "a"). -/
theorem c1_witness :
    (buildDiff ['a'] ['a']).additions = 0 ∧ (buildDiff ['a'] ['a']).deletions = 0 ∧
    (buildDiff ['a'] ['a']).hunks ≠ [] :=
  ⟨(c1_identical_texts ['a']).1, (c1_identical_texts ['a']).2.1,
    fun h => by simpa using (c1_identical_texts ['a']).2.2.1.mp h⟩

/-- C6: when no history entry carries the requested artifactIndex, the
resolver yields none and no diff is computed (the Hunk Builder is never
reached). -/
theorem c6_not_found (contents : List VersionedContent) (info : DiffInfo)
    (h : ∀ c ∈ contents, c.index ≠ info.artifactIndex) :
    resolve contents info = none ∧ computeDiffFor contents info = none := by
  have hfind : contents.find? (fun c => c.index == info.artifactIndex) = none := by
    rw [List.find?_eq_none]
    intro c hc
    simp [h c hc]
  constructor
  · rw [resolve, hfind]
  · rw [computeDiffFor, resolve, hfind]
    rfl

/-- C6 witness: a concrete one-entry history without the requested
index. -/
theorem c6_witness :
    resolve [{ index := 1, type := ContentKind.code, code := ['x'],
               fullMarkdown := [], title := [] }]
        { changeType := ChangeKind.update, artifactIndex := 2, previousIndex := some 1 } =
      none ∧
    computeDiffFor [{ index := 1, type := ContentKind.code, code := ['x'],
                      fullMarkdown := [], title := [] }]
        { changeType := ChangeKind.update, artifactIndex := 2, previousIndex := some 1 } =
      none :=
  c6_not_found _ _ (by decide)

/-- C7: the Hunk Builder always assembles either no hunk (when no
LineChange was emitted) or exactly one hunk starting at 1/1 whose line
counts are the final counter values minus one and whose changes are the
emitted LineChanges in order. -/
theorem c7_hunk_assembly (oldT newT : Text) :
    (buildDiff oldT newT).hunks =
      if (foldChanges (diffLines oldT newT)).hunkChanges = [] then []
      else
        [{ oldStart := 1,
           oldLines := (foldChanges (diffLines oldT newT)).oldLineNumber - 1,
           newStart := 1,
           newLines := (foldChanges (diffLines oldT newT)).newLineNumber - 1,
           changes := (foldChanges (diffLines oldT newT)).hunkChanges }] := by
  unfold buildDiff buildHunks
  dsimp only
  by_cases h : (foldChanges (diffLines oldT newT)).hunkChanges = []
  · simp [h]
  · have : (foldChanges (diffLines oldT newT)).hunkChanges.length > 0 :=
      List.length_pos.mpr h
    simp [h, this]

/-- C8: the returned additions count equals the number of inserted
LineChanges across all hunks, and deletions likewise for deleted
LineChanges. -/
theorem c8_stats_invariant (oldT newT : Text) :
    (buildDiff oldT newT).additions =
      hunksCountP (fun c => c.typ == LCKind.insert) (buildDiff oldT newT) ∧
    (buildDiff oldT newT).deletions =
      hunksCountP (fun c => c.typ == LCKind.delete) (buildDiff oldT newT) := by
  obtain ⟨h1, h2⟩ := foldChanges_countsOk (diffLines oldT newT)
  constructor
  · rw [buildDiff, buildHunks_countP]
    exact h1
  · rw [buildDiff, buildHunks_countP]
    exact h2

/-- C9: when the line-diff step fails, the render step reports the
error and leaves the previous panel state completely unchanged. -/
theorem c9_error_keeps_state (s : PanelState) (e : DiffError) :
    renderDiffStep s (Except.error e) = (s, [e]) := rfl

/-- C10: within any hunk, the oldLineNumbers carried by LineChanges
strictly increase in emission order, likewise the newLineNumbers, and
all carried line numbers are at least 1. -/
theorem c10_line_numbering (oldT newT : Text) :
    ∀ hk ∈ (buildDiff oldT newT).hunks,
      (oldNums hk.changes).Pairwise (· < ·) ∧
      (newNums hk.changes).Pairwise (· < ·) ∧
      (∀ x ∈ oldNums hk.changes, 1 ≤ x) ∧
      (∀ x ∈ newNums hk.changes, 1 ≤ x) := by
  intro hk hmem
  obtain ⟨hop, hnp, hob, hnb, _, _⟩ := foldChanges_numsOk (diffLines oldT newT)
  have hch : hk.changes = (foldChanges (diffLines oldT newT)).hunkChanges := by
    unfold buildDiff buildHunks at hmem
    dsimp only at hmem
    by_cases h : (foldChanges (diffLines oldT newT)).hunkChanges.length > 0
    · rw [if_pos h] at hmem
      rcases List.mem_singleton.mp hmem with rfl
      rfl
    · rw [if_neg h] at hmem
      exact absurd hmem (List.not_mem_nil hk)
  rw [hch]
  exact ⟨hop, hnp, fun x hx => (hob x hx).1, fun x hx => (hnb x hx).1⟩

/-- C10 witness: the numbering properties evaluated on the pair
("a", "b"), whose single hunk holds one deleted and one inserted line. -/
theorem c10_witness :
    (oldNums [LineChange.mk LCKind.delete ['a'] (some 1) none,
              LineChange.mk LCKind.insert ['b'] none (some 1)]).Pairwise (· < ·) ∧
    (newNums [LineChange.mk LCKind.delete ['a'] (some 1) none,
              LineChange.mk LCKind.insert ['b'] none (some 1)]).Pairwise (· < ·) ∧
    (∀ x ∈ oldNums [LineChange.mk LCKind.delete ['a'] (some 1) none,
                    LineChange.mk LCKind.insert ['b'] none (some 1)], 1 ≤ x) ∧
    (∀ x ∈ newNums [LineChange.mk LCKind.delete ['a'] (some 1) none,
                    LineChange.mk LCKind.insert ['b'] none (some 1)], 1 ≤ x) :=
  c10_line_numbering ['a'] ['b']
    (Hunk.mk 1 1 1 1
      [LineChange.mk LCKind.delete ['a'] (some 1) none,
       LineChange.mk LCKind.insert ['b'] none (some 1)])
    (by decide)

/-- C3 counterexample: on old="line1\nline2", new="line1\nline2\nline3"
the code yields additions = 2 and deletions = 1, not additions = 1 and
deletions = 0 as the frozen claim states. -/
theorem c3_counterexample :
    ¬((buildDiff "line1\nline2".toList "line1\nline2\nline3".toList).additions = 1 ∧
      (buildDiff "line1\nline2".toList "line1\nline2\nline3".toList).deletions = 0) := by
  decide

/-- C3 amended: the full DiffResult the code actually produces on this
pair — one hunk with five LineChanges (unchanged "line1" 1→1, a
spurious unchanged empty line 2→2, deleted "line2" at old 3, inserted
"line2" at new 3, inserted "line3" at new 4), additions = 2,
deletions = 1.  The last old line "line2" does not match the
newline-terminated "line2\n" token of the new text, so it is re-emitted
as a delete/insert pair, and the unchanged "line1\n" segment gains a
trailing empty line from the split filter. -/
theorem c3_scenario :
    buildDiff "line1\nline2".toList "line1\nline2\nline3".toList =
      DiffResult.mk
        [Hunk.mk 1 3 1 4
          [LineChange.mk LCKind.normal "line1".toList (some 1) (some 1),
           LineChange.mk LCKind.normal [] (some 2) (some 2),
           LineChange.mk LCKind.delete "line2".toList (some 3) none,
           LineChange.mk LCKind.insert "line2".toList none (some 3),
           LineChange.mk LCKind.insert "line3".toList none (some 4)]]
        2 1 := by
  decide

/-- C4 counterexample: for B = "a\n\nb" (three lines on any reading:
three diff tokens, three newline-separated fields) the code emits only
2 insertions, because the split filter drops the interior empty line
when B does not end with a newline. -/
theorem c4_counterexample :
    (buildDiff [] "a\n\nb".toList).additions = 2 ∧
    (tokenize "a\n\nb".toList).length = 3 ∧
    (splitNl "a\n\nb".toList).length = 3 := by
  decide

theorem foldChanges_insert_all (B : Text) (hd : diffLines [] B =
    [{ value := B, added := true, removed := false }]) :
    foldChanges (diffLines [] B) =
      { hunkChanges := insChanges (segLines B) 1,
        oldLineNumber := 1,
        newLineNumber := 1 + (segLines B).length,
        additions := (segLines B).length,
        deletions := 0 } := by
  rw [hd, foldChanges, List.foldl_cons, List.foldl_nil]
  simp only [applyChange, if_true]
  rw [emitInserts_eq]
  simp

theorem diffLines_nil_left (B : Text) (hne : B ≠ []) :
    diffLines [] B = [{ value := B, added := true, removed := false }] := by
  have htok : tokenize B ≠ [] := by
    cases B with
    | nil => exact absurd rfl hne
    | cons b bs => exact tokenize_ne_nil b bs
  unfold diffLines
  have h0 : tokenize ([] : Text) = [] := rfl
  rw [h0, if_neg (fun h => htok h.symm)]
  cases ht : tokenize B with
  | nil => exact absurd ht htok
  | cons t ts =>
    rw [editScript_nil_left, mergeEdits_ins_run]
    have hfl : (t :: ts).flatten = B := by
      rw [← ht]
      exact tokenize_flatten B
    rw [hfl]

/-- C4: the claim as frozen is false — additions is the number of lines
the split filter produces, not the number of lines of B (they differ
when B ends with a newline or has interior empty lines with no trailing
newline).  Amended: `buildDiff("", B)` has deletions = 0, every
LineChange inserted, and additions equal to the length of the filtered
split of B. -/
theorem c4_empty_old (B : Text) :
    (buildDiff [] B).deletions = 0 ∧
    (buildDiff [] B).additions = (segLines B).length ∧
    ∀ hk ∈ (buildDiff [] B).hunks, ∀ c ∈ hk.changes, c.typ = LCKind.insert := by
  by_cases hne : B = []
  · subst hne
    refine ⟨by decide, by decide, ?_⟩
    intro hk hmem
    have hnil : (buildDiff ([] : Text) ([] : Text)).hunks = [] := by decide
    rw [hnil] at hmem
    exact absurd hmem (List.not_mem_nil hk)
  · have hf := foldChanges_insert_all B (diffLines_nil_left B hne)
    unfold buildDiff buildHunks
    rw [hf]
    dsimp only
    refine ⟨rfl, rfl, ?_⟩
    intro hk hmem
    by_cases h : (insChanges (segLines B) 1).length > 0
    · rw [if_pos h] at hmem
      rcases List.mem_singleton.mp hmem with rfl
      exact typ_mem_insChanges (segLines B) 1
    · rw [if_neg h] at hmem
      exact absurd hmem (List.not_mem_nil hk)

/-- C4 witness: the amended statement evaluated at B = "x". -/
theorem c4_witness :
    (buildDiff [] ['x']).deletions = 0 ∧
    (buildDiff [] ['x']).additions = (segLines ['x']).length :=
  ⟨(c4_empty_old ['x']).1, (c4_empty_old ['x']).2.1⟩

theorem foldChanges_del_ins (dv iv : Text) :
    (foldChanges [Change.mk dv false true, Change.mk iv true false]).hunkChanges =
      delChanges (segLines dv) 1 ++ insChanges (segLines iv) 1 := by
  rw [foldChanges, List.foldl_cons, List.foldl_cons, List.foldl_nil]
  simp only [applyChange, Bool.false_eq_true, if_false, if_true]
  rw [emitDeletes_eq]
  dsimp only
  rw [emitInserts_eq]
  simp

theorem foldChanges_common_del_ins (cv dv iv : Text) :
    (foldChanges [Change.mk cv false false, Change.mk dv false true,
        Change.mk iv true false]).hunkChanges =
      normChanges (segLines cv) 1 1 ++
        delChanges (segLines dv) (1 + (segLines cv).length) ++
        insChanges (segLines iv) (1 + (segLines cv).length) := by
  rw [foldChanges, List.foldl_cons, List.foldl_cons, List.foldl_cons, List.foldl_nil]
  simp only [applyChange, Bool.false_eq_true, if_false, if_true]
  rw [emitNormals_eq]
  dsimp only
  rw [emitDeletes_eq]
  dsimp only
  rw [emitInserts_eq]
  simp [List.append_assoc]

theorem countP_isEmpty_pair (l : Text) (hlne : l ≠ []) :
    List.countP (fun x => x.isEmpty) [l, ([] : Text)] = 1 := by
  have : l.isEmpty = false := by
    cases l with
    | nil => exact absurd rfl hlne
    | cons c cs => rfl
  simp [List.countP_cons, this]

theorem countP_isEmpty_single (l : Text) (hlne : l ≠ []) :
    List.countP (fun x => x.isEmpty) [l] = 0 := by
  have : l.isEmpty = false := by
    cases l with
    | nil => exact absurd rfl hlne
    | cons c cs => rfl
  simp [List.countP_cons, this]

theorem c2_forward (A : Text) (hne : A ≠ []) (hew : endsWithNl A = false) :
    hunksCountP isInsEmpty (buildDiff A (A ++ ['\n'])) = 1 ∧
    hunksCountP isDelEmpty (buildDiff A (A ++ ['\n'])) = 0 := by
  obtain ⟨p, l, h1, h2, hlne, hlnl⟩ := tokenize_decomp A hne hew
  have hne2 : l ≠ l ++ ['\n'] := by simp
  have htokne : tokenize A ≠ tokenize (A ++ ['\n']) := by
    rw [h1, h2]
    intro h
    have := List.append_cancel_left h
    simp at this
  have hes : editScript (tokenize A) (tokenize (A ++ ['\n'])) =
      p.map Edit.keep ++ [Edit.del l, Edit.ins (l ++ ['\n'])] := by
    rw [h1, h2]
    exact editScript_append_single p l (l ++ ['\n']) hne2
  have hdl : diffLines A (A ++ ['\n']) =
      mergeEdits (p.map Edit.keep ++ [Edit.del l, Edit.ins (l ++ ['\n'])]) := by
    unfold diffLines
    rw [if_neg htokne, hes]
  rw [buildDiff, buildHunks_countP, buildHunks_countP, hdl]
  have hsd : segLines l = [l] := segLines_no_nl l hlne hlnl
  have hsi : segLines (l ++ ['\n']) = [l, []] := segLines_append_nl l hlnl
  cases p with
  | nil =>
    rw [List.map_nil, List.nil_append, mergeEdits_del_ins]
    have := foldChanges_del_ins l (l ++ ['\n'])
    rw [this, hsd, hsi]
    constructor
    · rw [List.countP_append, countP_isInsEmpty_delChanges, countP_isInsEmpty_insChanges,
        countP_isEmpty_pair l hlne]
    · rw [List.countP_append, countP_isDelEmpty_delChanges, countP_isDelEmpty_insChanges,
        countP_isEmpty_single l hlne]
  | cons q qs =>
    rw [mergeEdits_keep_run]
    have := foldChanges_common_del_ins (q :: qs).flatten l (l ++ ['\n'])
    rw [this, hsd, hsi]
    constructor
    · rw [List.countP_append, List.countP_append, countP_isInsEmpty_normChanges,
        countP_isInsEmpty_delChanges, countP_isInsEmpty_insChanges,
        countP_isEmpty_pair l hlne]
    · rw [List.countP_append, List.countP_append, countP_isDelEmpty_normChanges,
        countP_isDelEmpty_delChanges, countP_isDelEmpty_insChanges,
        countP_isEmpty_single l hlne]

theorem c2_backward (A : Text) (hne : A ≠ []) (hew : endsWithNl A = false) :
    hunksCountP isDelEmpty (buildDiff (A ++ ['\n']) A) = 1 ∧
    hunksCountP isInsEmpty (buildDiff (A ++ ['\n']) A) = 0 := by
  obtain ⟨p, l, h1, h2, hlne, hlnl⟩ := tokenize_decomp A hne hew
  have hne2 : (l ++ ['\n']) ≠ l := by simp
  have htokne : tokenize (A ++ ['\n']) ≠ tokenize A := by
    rw [h1, h2]
    intro h
    have := List.append_cancel_left h
    simp at this
  have hes : editScript (tokenize (A ++ ['\n'])) (tokenize A) =
      p.map Edit.keep ++ [Edit.del (l ++ ['\n']), Edit.ins l] := by
    rw [h1, h2]
    exact editScript_append_single p (l ++ ['\n']) l hne2
  have hdl : diffLines (A ++ ['\n']) A =
      mergeEdits (p.map Edit.keep ++ [Edit.del (l ++ ['\n']), Edit.ins l]) := by
    unfold diffLines
    rw [if_neg htokne, hes]
  rw [buildDiff, buildHunks_countP, buildHunks_countP, hdl]
  have hsd : segLines (l ++ ['\n']) = [l, []] := segLines_append_nl l hlnl
  have hsi : segLines l = [l] := segLines_no_nl l hlne hlnl
  cases p with
  | nil =>
    rw [List.map_nil, List.nil_append, mergeEdits_del_ins]
    have := foldChanges_del_ins (l ++ ['\n']) l
    rw [this, hsd, hsi]
    constructor
    · rw [List.countP_append, countP_isDelEmpty_delChanges, countP_isDelEmpty_insChanges,
        countP_isEmpty_pair l hlne]
    · rw [List.countP_append, countP_isInsEmpty_delChanges, countP_isInsEmpty_insChanges,
        countP_isEmpty_single l hlne]
  | cons q qs =>
    rw [mergeEdits_keep_run]
    have := foldChanges_common_del_ins (q :: qs).flatten (l ++ ['\n']) l
    rw [this, hsd, hsi]
    constructor
    · rw [List.countP_append, List.countP_append, countP_isDelEmpty_normChanges,
        countP_isDelEmpty_delChanges, countP_isDelEmpty_insChanges,
        countP_isEmpty_pair l hlne]
    · rw [List.countP_append, List.countP_append, countP_isInsEmpty_normChanges,
        countP_isInsEmpty_delChanges, countP_isInsEmpty_insChanges,
        countP_isEmpty_single l hlne]

/-- C2: the claim as frozen is false — for texts that already end with a
newline (or are empty), a pair differing only in a trailing newline
yields two inserted (or deleted) empty lines, not one.  Amended: the
splitter keeps every empty field (including the final one) exactly when
the segment's raw text ends with a line terminator and drops every
empty field otherwise; and for any nonempty A not ending in a
terminator, buildDiff(A, A+"\n") contains exactly one inserted empty
line and no deleted empty line, while buildDiff(A+"\n", A) contains
exactly one deleted empty line and no inserted empty line. -/
theorem c2_splitting_rule :
    (∀ v : Text, segLines v =
      if endsWithNl v then splitNl v else (splitNl v).filter (fun l => l != [])) ∧
    ∀ A : Text, A ≠ [] → endsWithNl A = false →
      hunksCountP isInsEmpty (buildDiff A (A ++ ['\n'])) = 1 ∧
      hunksCountP isDelEmpty (buildDiff A (A ++ ['\n'])) = 0 ∧
      hunksCountP isDelEmpty (buildDiff (A ++ ['\n']) A) = 1 ∧
      hunksCountP isInsEmpty (buildDiff (A ++ ['\n']) A) = 0 := by
  constructor
  · intro v
    unfold segLines
    cases hew : endsWithNl v
    · simp
    · simp
  · intro A hne hew
    obtain ⟨hf1, hf2⟩ := c2_forward A hne hew
    obtain ⟨hb1, hb2⟩ := c2_backward A hne hew
    exact ⟨hf1, hf2, hb1, hb2⟩

/-- C2 counterexample: "a\n" and "a\n\n" differ only in a trailing
newline, yet the diff contains two inserted empty lines (and no deleted
empty line), not exactly one. -/
theorem c2_counterexample :
    hunksCountP isInsEmpty (buildDiff "a\n".toList "a\n\n".toList) = 2 ∧
    hunksCountP isDelEmpty (buildDiff "a\n".toList "a\n\n".toList) = 0 := by
  decide

/-- C2 witness: the amended statement evaluated at A = "a". -/
theorem c2_witness :
    (['a'] : Text) ≠ [] ∧ endsWithNl ['a'] = false ∧
    hunksCountP isInsEmpty (buildDiff ['a'] (['a'] ++ ['\n'])) = 1 ∧
    hunksCountP isDelEmpty (buildDiff ['a'] (['a'] ++ ['\n'])) = 0 ∧
    hunksCountP isDelEmpty (buildDiff (['a'] ++ ['\n']) ['a']) = 1 ∧
    hunksCountP isInsEmpty (buildDiff (['a'] ++ ['\n']) ['a']) = 0 :=
  ⟨by decide, by decide, c2_splitting_rule.2 ['a'] (by decide) (by decide)⟩

/-- C5: old-text selection in the resolver.  With unique indices and
the current version found: a create descriptor forces oldText empty
regardless of previousIndex; an update whose previous entry exists with
the same kind takes that entry's body (code body for code, markdown
body otherwise); in every other case (missing previous entry or kind
mismatch) oldText is empty. -/
theorem c5_old_text_selection (contents : List VersionedContent) (info : DiffInfo)
    (hu : List.Pairwise (fun a b => a.index ≠ b.index) contents)
    (cc : VersionedContent)
    (hcc : contents.find? (fun c => c.index == info.artifactIndex) = some cc)
    (res : Resolved) (hres : resolve contents info = some res) :
    (info.changeType = ChangeKind.create → res.oldText = []) ∧
    (info.changeType = ChangeKind.update →
      ∀ p ∈ contents, some p.index = info.previousIndex → p.type = cc.type →
        res.oldText = (if p.type = ContentKind.code then p.code else p.fullMarkdown)) ∧
    (info.changeType = ChangeKind.update →
      (∀ p ∈ contents, some p.index = info.previousIndex → p.type ≠ cc.type) →
      res.oldText = []) := by
  cases hct : info.changeType with
  | create =>
    refine ⟨fun _ => ?_, fun h => ?_, fun h => ?_⟩
    · rw [resolve, hcc] at hres
      simp only [hct] at hres
      simp only [show (ChangeKind.create = ChangeKind.update) = False by simp,
        if_false, if_true, reduceCtorEq] at hres
      have hres' := Option.some.inj hres
      rw [← hres']
    · exact absurd h (by decide)
    · exact absurd h (by decide)
  | update =>
    refine ⟨fun h => ?_, fun _ => ?_, fun _ => ?_⟩
    · exact absurd h (by decide)
    · intro p hp hpidx hptype
      have hpred : (fun c => some c.index == info.previousIndex) p = true := by
        simp [← hpidx]
      have hfind : contents.find? (fun c => some c.index == info.previousIndex) = some p := by
        refine find?_unique_mem _ contents hu p hp hpred ?_
        intro c hc
        simp only [beq_iff_eq] at hc
        rw [← hpidx] at hc
        exact Option.some.inj hc
      rw [resolve, hcc] at hres
      simp only [hct, if_pos rfl, hfind, reduceCtorEq, if_false] at hres
      have hres' := Option.some.inj hres
      rw [← hres']
      cases hcct : cc.type with
      | code =>
        rw [hcct] at hptype
        simp [hcct, hptype]
      | text =>
        rw [hcct] at hptype
        simp [hcct, hptype]
    · intro hnone
      rw [resolve, hcc] at hres
      simp only [hct, if_pos rfl, reduceCtorEq, if_false] at hres
      cases hfind : contents.find? (fun c => some c.index == info.previousIndex) with
      | none =>
        rw [hfind] at hres
        have hres' := Option.some.inj hres
        rw [← hres']
        cases hcct : cc.type <;> simp [hcct]
      | some q =>
        rw [hfind] at hres
        have hqmem : q ∈ contents := List.mem_of_find?_eq_some hfind
        have hqpred := List.find?_some hfind
        simp only [beq_iff_eq] at hqpred
        have hqtype : q.type ≠ cc.type := hnone q hqmem hqpred
        have hres' := Option.some.inj hres
        rw [← hres']
        cases hcct : cc.type with
        | code =>
          rw [hcct] at hqtype
          have : q.type ≠ ContentKind.code := hqtype
          simp [hcct, this]
        | text =>
          rw [hcct] at hqtype
          have : q.type ≠ ContentKind.text := hqtype
          simp [hcct, this]

/-- C5 witness: a two-entry history of markdown contents, an update
descriptor from version 1 to version 2; the resolver picks version 1's
markdown body as the old text. -/
theorem c5_witness :
    resolve
        [VersionedContent.mk 1 ContentKind.text [] ['x'] [],
         VersionedContent.mk 2 ContentKind.text [] ['y'] []]
        (DiffInfo.mk ChangeKind.update 2 (some 1)) =
      some (Resolved.mk ['x'] ['y'] "Untitled".toList) ∧
    (Resolved.mk ['x'] ['y'] "Untitled".toList).oldText =
      (if (VersionedContent.mk 1 ContentKind.text [] ['x'] []).type = ContentKind.code
       then (VersionedContent.mk 1 ContentKind.text [] ['x'] []).code
       else (VersionedContent.mk 1 ContentKind.text [] ['x'] []).fullMarkdown) := by
  refine ⟨by decide, ?_⟩
  have h := (c5_old_text_selection
      [VersionedContent.mk 1 ContentKind.text [] ['x'] [],
       VersionedContent.mk 2 ContentKind.text [] ['y'] []]
      (DiffInfo.mk ChangeKind.update 2 (some 1))
      (by decide)
      (VersionedContent.mk 2 ContentKind.text [] ['y'] [])
      (by decide)
      (Resolved.mk ['x'] ['y'] "Untitled".toList)
      (by decide)).2.1 rfl
      (VersionedContent.mk 1 ContentKind.text [] ['x'] [])
      (by decide) (by decide) (by decide)
  exact h

end ArtifactDiffPanel
